import Mathlib

/-!
Verification development for the trivia question-supply backend
(`backend/main.py`, `backend/models.py`).

Texts are modelled as `List Char`.  Python's `str.lower` is modelled by
`Char.toLower` (faithful on ASCII), `re`'s `\s` by the six ASCII whitespace
characters, and the SHA-256 16-hex-character prefix of the content hash is
abstracted by the canonical pre-hash string itself (SHA-256 is deterministic,
so equal canonical strings give equal hashes; the development never relies on
hash collisions).
-/

namespace Trivia

/-- Characters matched by Python's `\s` on ASCII text (also stripped by
`str.strip`). -/
def isWS (c : Char) : Bool :=
  c = ' ' ∨ c = '\t' ∨ c = '\n' ∨ c = '\r' ∨ c = '\x0b' ∨ c = '\x0c'

/-- The punctuation characters standardized by `normalize_text`
(`[.!?,:;]`). -/
def isPunct (c : Char) : Bool :=
  c = '.' ∨ c = '!' ∨ c = '?' ∨ c = ',' ∨ c = ':' ∨ c = ';'

/-- Model of `text.lower()`. -/
def lowerText (s : List Char) : List Char := s.map Char.toLower

theorem length_dropWhile_le {α : Type} (p : α → Bool) :
    ∀ l : List α, (l.dropWhile p).length ≤ l.length := by
  intro l
  induction l with
  | nil => simp [List.dropWhile]
  | cons c rest ih =>
    simp only [List.dropWhile]
    cases p c <;> simp <;> omega

/-- Drops trailing characters satisfying `p` (helper for `strip`/`rstrip`). -/
def dropTrailing (p : Char → Bool) : List Char → List Char
  | [] => []
  | c :: rest =>
    match dropTrailing p rest with
    | [] => if p c then [] else [c]
    | r => c :: r

/-- Model of `text.strip()`: removes leading and trailing whitespace. -/
def stripText (s : List Char) : List Char :=
  dropTrailing isWS (s.dropWhile isWS)

/-- Model of `re.sub(r'\s+', ' ', s)`: each maximal whitespace run becomes a
single space. -/
def collapseWS : List Char → List Char
  | [] => []
  | c :: rest =>
    if isWS c then ' ' :: collapseWS (rest.dropWhile isWS)
    else c :: collapseWS rest
  termination_by s => s.length
  decreasing_by
    · simpa using Nat.lt_succ_of_le (length_dropWhile_le isWS rest)
    · simp

/-- Model of `re.sub(r'\s*([.!?,:;])\s*', r'\1 ', s)`: scanning left to right,
a whitespace run followed by a punctuation character (or a bare punctuation
character), together with the whitespace following it, is replaced by the
punctuation character and a single space. -/
def punctSub : List Char → List Char
  | [] => []
  | c :: rest =>
    if isPunct c then c :: ' ' :: punctSub (rest.dropWhile isWS)
    else if isWS c then
      match h : rest.dropWhile isWS with
      | p :: tail =>
        if isPunct p then p :: ' ' :: punctSub (tail.dropWhile isWS)
        else c :: punctSub rest
      | [] => c :: punctSub rest
    else c :: punctSub rest
  termination_by s => s.length
  decreasing_by
    · simpa using Nat.lt_succ_of_le (length_dropWhile_le isWS rest)
    · have h1 : (rest.dropWhile isWS).length ≤ rest.length :=
        length_dropWhile_le isWS rest
      have h2 : tail.length < (rest.dropWhile isWS).length := by
        rw [h]; simp
      have h3 : (tail.dropWhile isWS).length ≤ tail.length :=
        length_dropWhile_le isWS tail
      simp only [List.length_cons]
      omega
    · simp
    · simp
    · simp

/-- Model of `s.rstrip(' ')`: removes trailing space characters only. -/
def rstripSpaces (s : List Char) : List Char :=
  dropTrailing (fun c => c = ' ') s

/-- Model of `normalize_text` (`backend/main.py`): lowercase, strip, collapse
whitespace runs, standardize punctuation spacing, remove the trailing
punctuation space.  (`normalize_text` returns `""` on empty input, which the
pipeline also does.) -/
def normalize_text (s : List Char) : List Char :=
  rstripSpaces (punctSub (collapseWS (stripText (lowerText s))))

/-- Model of Python's `sorted` on strings: sort lexicographically (the exact
total order is irrelevant to the claims; only that it is a fixed linear
order). -/
def sortTexts (l : List (List Char)) : List (List Char) :=
  List.insertionSort (fun a b : List Char => a ≤ b) l

/-- Model of `generate_content_hash` (`backend/main.py`): normalize the
question and answer, normalize and sort the options when the list is
non-empty, and join everything with `|`.  The SHA-256 16-hex prefix is
abstracted by the canonical string itself (equal canonical strings give equal
hashes). -/
def generate_content_hash (question answer : List Char)
    (options : List (List Char)) : List Char :=
  let norm_question := normalize_text question
  let norm_answer := normalize_text answer
  let content_parts :=
    if options.isEmpty then [norm_question, norm_answer]
    else [norm_question, norm_answer] ++ sortTexts (options.map normalize_text)
  List.intercalate ['|'] content_parts

/-! ## Token abstraction for the normalization law (claim C4)

Two texts "differ only in casing, in runs of whitespace, or in spacing around
the punctuation characters `.!?,:;`" exactly when they have the same
`abstractForm`: the lowercased text, with each maximal whitespace run
abstracted to a single `gap` token, with gaps adjacent to punctuation
discarded, and with leading and trailing gaps discarded. -/

/-- Abstract text token: an ordinary character, a whitespace run, or a
punctuation character. -/
inductive Tok where
  | chr (c : Char)
  | gap
  | punct (c : Char)
deriving DecidableEq, Repr

/-- Tokenize a text: maximal whitespace runs become single `gap` tokens,
punctuation characters become `punct` tokens and all other characters `chr`
tokens. -/
def tokenize : List Char → List Tok
  | [] => []
  | c :: rest =>
    if isWS c then Tok.gap :: tokenize (rest.dropWhile isWS)
    else if isPunct c then Tok.punct c :: tokenize rest
    else Tok.chr c :: tokenize rest
  termination_by s => s.length
  decreasing_by
    · simpa using Nat.lt_succ_of_le (length_dropWhile_le isWS rest)
    · simp
    · simp

/-- Drops a single leading `gap` token. -/
def dropGap : List Tok → List Tok
  | Tok.gap :: rest => rest
  | ts => ts

/-- Removes the gaps adjacent to punctuation tokens, scanning left to right
with the same shape as `punctSub`. -/
def scrub : List Tok → List Tok
  | [] => []
  | Tok.punct p :: rest => Tok.punct p :: scrub (dropGap rest)
  | Tok.gap :: Tok.punct p :: rest => Tok.punct p :: scrub (dropGap rest)
  | Tok.gap :: rest => Tok.gap :: scrub rest
  | Tok.chr c :: rest => Tok.chr c :: scrub rest
  termination_by ts => ts.length
  decreasing_by
    · cases rest with
      | nil => simp [dropGap]
      | cons t rest2 =>
        cases t <;> simp [dropGap] <;> omega
    · cases rest with
      | nil => simp [dropGap]
      | cons t rest2 =>
        cases t <;> simp [dropGap] <;> omega
    · simp
    · simp

/-- Drops trailing `gap` tokens. -/
def dropGapLast : List Tok → List Tok
  | [] => []
  | t :: ts =>
    match dropGapLast ts with
    | [] => if t = Tok.gap then [] else [t]
    | r => t :: r

/-- Drops leading and trailing gaps. -/
def trimGaps (ts : List Tok) : List Tok :=
  dropGapLast (ts.dropWhile (· = Tok.gap))

/-- The abstraction of a text under casing, whitespace runs and punctuation
spacing: lowercase, tokenize, drop end gaps and gaps adjacent to
punctuation. -/
def abstractForm (s : List Char) : List Tok :=
  scrub (trimGaps (tokenize (lowerText s)))

/-- Two texts differ only in casing, in runs of whitespace, or in spacing
around the punctuation characters `.!?,:;` exactly when their abstract forms
agree. -/
def DifferOnlyInCaseWsPunct (s t : List Char) : Prop :=
  abstractForm s = abstractForm t

instance (s t : List Char) : Decidable (DifferOnlyInCaseWsPunct s t) :=
  inferInstanceAs (Decidable (abstractForm s = abstractForm t))

/-- Concretization of a token list: gaps as single spaces. -/
def untok : List Tok → List Char
  | [] => []
  | Tok.chr c :: ts => c :: untok ts
  | Tok.gap :: ts => ' ' :: untok ts
  | Tok.punct p :: ts => p :: untok ts

/-- Concretization after punctuation standardization: every punctuation token
carries its single trailing space. -/
def untokR : List Tok → List Char
  | [] => []
  | Tok.chr c :: ts => c :: untokR ts
  | Tok.gap :: ts => ' ' :: untokR ts
  | Tok.punct p :: ts => p :: ' ' :: untokR ts

/-- Rendering of an abstract form as a normalized text. -/
def render (ts : List Tok) : List Char :=
  rstripSpaces (untokR ts)

/-! ### Unfolding and character-class helper lemmas -/

theorem not_ws_of_punct {c : Char} (h : isPunct c = true) : isWS c = false := by
  simp only [isPunct, decide_eq_true_eq] at h
  rcases h with rfl | rfl | rfl | rfl | rfl | rfl <;> rfl

theorem collapseWS_cons_ws {c : Char} {rest : List Char} (h : isWS c = true) :
    collapseWS (c :: rest) = ' ' :: collapseWS (rest.dropWhile isWS) := by
  rw [collapseWS]; simp [h]

theorem collapseWS_cons_not_ws {c : Char} {rest : List Char}
    (h : isWS c = false) : collapseWS (c :: rest) = c :: collapseWS rest := by
  rw [collapseWS]; simp [h]

theorem tokenize_cons_ws {c : Char} {rest : List Char} (h : isWS c = true) :
    tokenize (c :: rest) = Tok.gap :: tokenize (rest.dropWhile isWS) := by
  rw [tokenize]; simp [h]

theorem tokenize_cons_punct {c : Char} {rest : List Char}
    (hw : isWS c = false) (hp : isPunct c = true) :
    tokenize (c :: rest) = Tok.punct c :: tokenize rest := by
  rw [tokenize]; simp [hw, hp]

theorem tokenize_cons_chr {c : Char} {rest : List Char}
    (hw : isWS c = false) (hp : isPunct c = false) :
    tokenize (c :: rest) = Tok.chr c :: tokenize rest := by
  rw [tokenize]; simp [hw, hp]

theorem tokenize_nil : tokenize [] = [] := by rw [tokenize]

/-- `collapseWS` is the concretization of `tokenize`. -/
theorem collapseWS_eq_untok_tokenize (s : List Char) :
    collapseWS s = untok (tokenize s) := by
  induction s using tokenize.induct with
  | case1 => rw [tokenize]; rw [collapseWS]; rfl
  | case2 c rest hc ih =>
    rw [tokenize_cons_ws hc, collapseWS_cons_ws hc, untok, ih]
  | case3 c rest hw hp ih =>
    rw [tokenize_cons_punct (by simpa using hw) hp,
      collapseWS_cons_not_ws (by simpa using hw), untok, ih]
  | case4 c rest hw hp ih =>
    rw [tokenize_cons_chr (by simpa using hw) (by simpa using hp),
      collapseWS_cons_not_ws (by simpa using hw), untok, ih]

/-- Tokenizing a whitespace-stripped text never yields a leading gap. -/
theorem tokenize_dropWhile_not_gap (s : List Char) :
    (tokenize (s.dropWhile isWS)).dropWhile (· = Tok.gap)
      = tokenize (s.dropWhile isWS) := by
  induction s with
  | nil => simp [tokenize_nil]
  | cons c rest ih =>
    by_cases hc : isWS c = true
    · rw [List.dropWhile_cons_of_pos (by simpa using hc)]
      exact ih
    · rw [List.dropWhile_cons_of_neg (by simpa using hc)]
      by_cases hp : isPunct c = true
      · rw [tokenize_cons_punct (by simpa using hc) hp]
        simp
      · rw [tokenize_cons_chr (by simpa using hc) (by simpa using hp)]
        simp

/-- Leading-whitespace removal corresponds to leading-gap removal. -/
theorem tokenize_dropWhile_eq (s : List Char) :
    tokenize (s.dropWhile isWS) = (tokenize s).dropWhile (· = Tok.gap) := by
  cases s with
  | nil => simp [tokenize_nil]
  | cons c rest =>
    by_cases hc : isWS c = true
    · rw [List.dropWhile_cons_of_pos (by simpa using hc), tokenize_cons_ws hc]
      rw [List.dropWhile_cons_of_pos (by simp)]
      exact (tokenize_dropWhile_not_gap rest).symm
    · rw [List.dropWhile_cons_of_neg (by simpa using hc)]
      by_cases hp : isPunct c = true
      · rw [tokenize_cons_punct (by simpa using hc) hp,
          List.dropWhile_cons_of_neg (by simp)]
      · rw [tokenize_cons_chr (by simpa using hc) (by simpa using hp),
          List.dropWhile_cons_of_neg (by simp)]

theorem dropTrailing_eq_nil_iff (p : Char → Bool) (s : List Char) :
    dropTrailing p s = [] ↔ ∀ c ∈ s, p c = true := by
  induction s with
  | nil => simp [dropTrailing]
  | cons c rest ih =>
    cases h0 : dropTrailing p rest with
    | nil =>
      by_cases hc : p c = true
      · have hall := ih.mp h0
        simp only [dropTrailing, h0, hc, if_true]
        constructor
        · intro _ x hx
          rcases List.mem_cons.mp hx with rfl | hx2
          · exact hc
          · exact hall x hx2
        · intro _; trivial
      · simp [dropTrailing, h0, hc]
    | cons r rs =>
      have : ¬ ∀ x ∈ rest, p x = true := by
        intro hall
        rw [ih.mpr hall] at h0
        exact List.noConfusion h0
      simp only [dropTrailing, h0]
      constructor
      · intro h
        exact absurd h (List.noConfusion)
      · intro h
        exact absurd (fun x hx => h x (List.mem_cons_of_mem c hx)) this

theorem dropWhile_dropTrailing_comm (z : List Char) :
    (dropTrailing isWS z).dropWhile isWS
      = dropTrailing isWS (z.dropWhile isWS) := by
  induction z with
  | nil => simp [dropTrailing]
  | cons c z2 ih =>
    by_cases hc : isWS c = true
    · rw [List.dropWhile_cons_of_pos (by simpa using hc)]
      cases h0 : dropTrailing isWS z2 with
      | nil =>
        have hall : ∀ x ∈ z2, isWS x = true :=
          (dropTrailing_eq_nil_iff isWS z2).mp h0
        have hdz : z2.dropWhile isWS = [] :=
          List.dropWhile_eq_nil_iff.mpr (by intro a ha; simpa using hall a ha)
        simp [dropTrailing, h0, hc, hdz]
      | cons r rs =>
        have hcons : dropTrailing isWS (c :: z2) = c :: dropTrailing isWS z2 := by
          simp [dropTrailing, h0]
        rw [hcons, List.dropWhile_cons_of_pos (by simpa using hc), ih]
    · rw [List.dropWhile_cons_of_neg (by simpa using hc)]
      cases h0 : dropTrailing isWS (c :: z2) with
      | nil =>
        have hall := (dropTrailing_eq_nil_iff isWS (c :: z2)).mp h0
        exact absurd (hall c (List.mem_cons_self c z2)) (by simpa using hc)
      | cons r rs =>
        have hr : r = c := by
          simp only [dropTrailing] at h0
          cases h1 : dropTrailing isWS z2 with
          | nil => rw [h1] at h0; simp [hc] at h0; exact h0.1.symm
          | cons a as => rw [h1] at h0; simp at h0; exact h0.1.symm
        rw [List.dropWhile_cons_of_neg (by simpa [hr] using hc)]

theorem tokenize_eq_nil_iff (s : List Char) : tokenize s = [] ↔ s = [] := by
  cases s with
  | nil => simp [tokenize_nil]
  | cons c rest =>
    constructor
    · intro h
      by_cases hc : isWS c = true
      · rw [tokenize_cons_ws hc] at h; exact List.noConfusion h
      · by_cases hp : isPunct c = true
        · rw [tokenize_cons_punct (by simpa using hc) hp] at h
          exact List.noConfusion h
        · rw [tokenize_cons_chr (by simpa using hc) (by simpa using hp)] at h
          exact List.noConfusion h
    · intro h; exact List.noConfusion h

theorem dropGapLast_nil : dropGapLast [] = [] := rfl

theorem dropGapLast_cons_of_ne_nil {t : Tok} {ts : List Tok}
    (h : dropGapLast ts ≠ []) :
    dropGapLast (t :: ts) = t :: dropGapLast ts := by
  cases h0 : dropGapLast ts with
  | nil => exact absurd h0 h
  | cons r rs => simp only [dropGapLast, h0]

theorem dropGapLast_cons_of_nil {t : Tok} {ts : List Tok}
    (h : dropGapLast ts = []) (ht : t ≠ Tok.gap) :
    dropGapLast (t :: ts) = [t] := by
  simp only [dropGapLast, h]
  simp [ht]

theorem dropGapLast_ne_nil_of_head {t : Tok} {ts : List Tok}
    (ht : t ≠ Tok.gap) : dropGapLast (t :: ts) ≠ [] := by
  cases h0 : dropGapLast ts with
  | nil => rw [dropGapLast_cons_of_nil h0 ht]; simp
  | cons r rs =>
    rw [dropGapLast_cons_of_ne_nil (by simp [h0])]
    simp

theorem dropGapLast_tokenize_allws {z : List Char}
    (h : ∀ c ∈ z, isWS c = true) : dropGapLast (tokenize z) = [] := by
  cases z with
  | nil => rw [tokenize_nil]; rfl
  | cons w z2 =>
    have hw : isWS w = true := h w (List.mem_cons_self w z2)
    have hz2 : z2.dropWhile isWS = [] :=
      List.dropWhile_eq_nil_iff.mpr
        (by intro a ha; simpa using h a (List.mem_cons_of_mem w ha))
    rw [tokenize_cons_ws hw, hz2, tokenize_nil]
    rfl

/-- Trailing-whitespace removal corresponds to trailing-gap removal. -/
theorem tokenize_dropTrailing (s : List Char) :
    tokenize (dropTrailing isWS s) = dropGapLast (tokenize s) := by
  induction s using tokenize.induct with
  | case1 =>
    have h1 : dropTrailing isWS ([] : List Char) = [] := rfl
    rw [h1, tokenize_nil]
    rfl
  | case2 c rest hc ih =>
    rw [tokenize_cons_ws hc]
    cases h0 : dropTrailing isWS rest with
    | nil =>
      have hall := (dropTrailing_eq_nil_iff isWS rest).mp h0
      have : dropTrailing isWS (c :: rest) = [] := by
        apply (dropTrailing_eq_nil_iff isWS (c :: rest)).mpr
        intro x hx
        rcases List.mem_cons.mp hx with rfl | hx2
        · exact hc
        · exact hall x hx2
      rw [this, tokenize_nil]
      have hz : rest.dropWhile isWS = [] :=
        List.dropWhile_eq_nil_iff.mpr (by intro a ha; simpa using hall a ha)
      rw [hz, tokenize_nil]
      rfl
    | cons r rs =>
      have hcons : dropTrailing isWS (c :: rest) = c :: (r :: rs) := by
        simp [dropTrailing, h0]
      rw [hcons, tokenize_cons_ws hc, ← h0, dropWhile_dropTrailing_comm, ih]
      have hne : dropGapLast (tokenize (rest.dropWhile isWS)) ≠ [] := by
        have hrne : rest.dropWhile isWS ≠ [] := by
          intro hnil
          have : ∀ x ∈ rest, isWS x = true := by
            have := List.dropWhile_eq_nil_iff.mp hnil
            intro a ha; simpa using this a ha
          rw [(dropTrailing_eq_nil_iff isWS rest).mpr this] at h0
          exact List.noConfusion h0
        cases hdw : rest.dropWhile isWS with
        | nil => exact absurd hdw hrne
        | cons d tail =>
          have hd : isWS d = false := by
            have := List.head_dropWhile_not isWS (l := rest) (by simp [hdw])
            simpa [hdw] using this
          by_cases hp : isPunct d = true
          · rw [tokenize_cons_punct hd hp]
            exact dropGapLast_ne_nil_of_head (by simp)
          · rw [tokenize_cons_chr hd (by simpa using hp)]
            exact dropGapLast_ne_nil_of_head (by simp)
      rw [dropGapLast_cons_of_ne_nil hne]
  | case3 c rest hw hp ih =>
    have hw' : isWS c = false := by simpa using hw
    rw [tokenize_cons_punct hw' hp]
    cases h0 : dropTrailing isWS rest with
    | nil =>
      have hall := (dropTrailing_eq_nil_iff isWS rest).mp h0
      have hcons : dropTrailing isWS (c :: rest) = [c] := by
        simp [dropTrailing, h0, hw']
      rw [hcons, tokenize_cons_punct hw' hp, tokenize_nil]
      rw [dropGapLast_cons_of_nil (dropGapLast_tokenize_allws hall) (by simp)]
    | cons r rs =>
      have hcons : dropTrailing isWS (c :: rest) = c :: (r :: rs) := by
        simp [dropTrailing, h0]
      have hne : dropGapLast (tokenize rest) ≠ [] := by
        rw [← ih, h0]
        simpa using (tokenize_eq_nil_iff (r :: rs)).not.mpr (by simp)
      rw [hcons, tokenize_cons_punct hw' hp, ← h0, ih,
        dropGapLast_cons_of_ne_nil hne]
  | case4 c rest hw hp ih =>
    have hw' : isWS c = false := by simpa using hw
    have hp' : isPunct c = false := by simpa using hp
    rw [tokenize_cons_chr hw' hp']
    cases h0 : dropTrailing isWS rest with
    | nil =>
      have hall := (dropTrailing_eq_nil_iff isWS rest).mp h0
      have hcons : dropTrailing isWS (c :: rest) = [c] := by
        simp [dropTrailing, h0, hw']
      rw [hcons, tokenize_cons_chr hw' hp', tokenize_nil]
      rw [dropGapLast_cons_of_nil (dropGapLast_tokenize_allws hall) (by simp)]
    | cons r rs =>
      have hcons : dropTrailing isWS (c :: rest) = c :: (r :: rs) := by
        simp [dropTrailing, h0]
      have hne : dropGapLast (tokenize rest) ≠ [] := by
        rw [← ih, h0]
        simpa using (tokenize_eq_nil_iff (r :: rs)).not.mpr (by simp)
      rw [hcons, tokenize_cons_chr hw' hp', ← h0, ih,
        dropGapLast_cons_of_ne_nil hne]

/-- The whitespace phase of `normalize_text` is the concretization of the
gap-trimmed token stream. -/
theorem collapse_strip_eq (s : List Char) :
    collapseWS (stripText s) = untok (trimGaps (tokenize s)) := by
  unfold stripText trimGaps
  rw [collapseWS_eq_untok_tokenize, tokenize_dropTrailing,
    tokenize_dropWhile_eq]

/-! ### Well-formed token streams and the punctuation phase -/

/-- Token streams produced by `tokenize`: ordinary characters are neither
whitespace nor punctuation, punctuation tokens carry punctuation characters,
and no two gaps are adjacent. -/
def TokWF : List Tok → Bool
  | [] => true
  | Tok.chr c :: ts => !isWS c && !isPunct c && TokWF ts
  | Tok.punct p :: ts => isPunct p && TokWF ts
  | Tok.gap :: Tok.gap :: _ => false
  | Tok.gap :: ts => TokWF ts

theorem TokWF_nil : TokWF [] = true := rfl

theorem TokWF_chr_cons {c : Char} {ts : List Tok} :
    TokWF (Tok.chr c :: ts) = (!isWS c && !isPunct c && TokWF ts) := rfl

theorem TokWF_punct_cons {p : Char} {ts : List Tok} :
    TokWF (Tok.punct p :: ts) = (isPunct p && TokWF ts) := rfl

theorem TokWF_gap_gap {ts : List Tok} :
    TokWF (Tok.gap :: Tok.gap :: ts) = false := rfl

theorem TokWF_gap_nil : TokWF [Tok.gap] = true := rfl

theorem TokWF_gap_chr {c : Char} {ts : List Tok} :
    TokWF (Tok.gap :: Tok.chr c :: ts) = TokWF (Tok.chr c :: ts) := rfl

theorem TokWF_gap_punct {p : Char} {ts : List Tok} :
    TokWF (Tok.gap :: Tok.punct p :: ts) = TokWF (Tok.punct p :: ts) := rfl

theorem TokWF_tail {t : Tok} {ts : List Tok} (h : TokWF (t :: ts) = true) :
    TokWF ts = true := by
  cases t with
  | chr c =>
    rw [TokWF_chr_cons] at h
    simp only [Bool.and_eq_true] at h
    exact h.2
  | punct p =>
    rw [TokWF_punct_cons] at h
    simp only [Bool.and_eq_true] at h
    exact h.2
  | gap =>
    cases ts with
    | nil => rfl
    | cons u us =>
      cases u with
      | gap => rw [TokWF_gap_gap] at h; exact absurd h (by simp)
      | chr c => rw [TokWF_gap_chr] at h; exact h
      | punct p => rw [TokWF_gap_punct] at h; exact h

theorem not_punct_of_ws {c : Char} (h : isWS c = true) : isPunct c = false := by
  simp only [isWS, decide_eq_true_eq] at h
  rcases h with rfl | rfl | rfl | rfl | rfl | rfl <;> rfl

theorem punctSub_nil : punctSub [] = [] := by rw [punctSub.eq_def]

theorem punctSub_cons_punct {c : Char} {rest : List Char}
    (hp : isPunct c = true) :
    punctSub (c :: rest) = c :: ' ' :: punctSub (rest.dropWhile isWS) := by
  rw [punctSub.eq_def]; simp [hp]

theorem punctSub_cons_ws_punct {c p : Char} {rest tail : List Char}
    (hw : isWS c = true) (hd : rest.dropWhile isWS = p :: tail)
    (hp : isPunct p = true) :
    punctSub (c :: rest) = p :: ' ' :: punctSub (tail.dropWhile isWS) := by
  rw [punctSub.eq_def]
  simp only [not_punct_of_ws hw, hw, Bool.false_eq_true, if_false, if_true]
  split
  · next p2 tail2 heq =>
    rw [hd] at heq
    cases heq
    simp [hp]
  · next heq =>
    rw [hd] at heq
    exact absurd heq (List.noConfusion)

theorem punctSub_cons_ws_nonpunct {c p : Char} {rest tail : List Char}
    (hw : isWS c = true) (hd : rest.dropWhile isWS = p :: tail)
    (hp : isPunct p = false) :
    punctSub (c :: rest) = c :: punctSub rest := by
  rw [punctSub.eq_def]
  simp only [not_punct_of_ws hw, hw, Bool.false_eq_true, if_false, if_true]
  split
  · next p2 tail2 heq =>
    rw [hd] at heq
    cases heq
    simp [hp]
  · next heq => rfl

theorem punctSub_cons_ws_nil {c : Char} {rest : List Char}
    (hw : isWS c = true) (hd : rest.dropWhile isWS = []) :
    punctSub (c :: rest) = c :: punctSub rest := by
  rw [punctSub.eq_def]
  simp only [not_punct_of_ws hw, hw, Bool.false_eq_true, if_false, if_true]
  split
  · next p2 tail2 heq =>
    rw [hd] at heq
    exact absurd heq.symm (List.noConfusion)
  · next => rfl

theorem punctSub_cons_other {c : Char} {rest : List Char}
    (hw : isWS c = false) (hp : isPunct c = false) :
    punctSub (c :: rest) = c :: punctSub rest := by
  rw [punctSub.eq_def]; simp [hw, hp]

theorem scrub_nil : scrub [] = [] := by rw [scrub.eq_def]

theorem scrub_punct_cons {p : Char} {rest : List Tok} :
    scrub (Tok.punct p :: rest) = Tok.punct p :: scrub (dropGap rest) := by
  rw [scrub.eq_def]

theorem scrub_gap_punct {p : Char} {rest : List Tok} :
    scrub (Tok.gap :: Tok.punct p :: rest)
      = Tok.punct p :: scrub (dropGap rest) := by
  rw [scrub.eq_def]

theorem scrub_gap_nil : scrub [Tok.gap] = [Tok.gap] := by
  rw [scrub.eq_def]
  show Tok.gap :: scrub [] = [Tok.gap]
  rw [scrub_nil]

theorem scrub_gap_chr {c : Char} {rest : List Tok} :
    scrub (Tok.gap :: Tok.chr c :: rest)
      = Tok.gap :: scrub (Tok.chr c :: rest) := by
  rw [scrub.eq_def]

theorem scrub_chr_cons {c : Char} {rest : List Tok} :
    scrub (Tok.chr c :: rest) = Tok.chr c :: scrub rest := by
  rw [scrub.eq_def]

theorem untok_dropWhile_self {ts : List Tok} (h : TokWF ts = true)
    (hg : ∀ us, ts ≠ Tok.gap :: us) :
    (untok ts).dropWhile isWS = untok ts := by
  cases ts with
  | nil => rfl
  | cons t us =>
    cases t with
    | gap => exact absurd rfl (hg us)
    | chr c =>
      have hc : isWS c = false := by
        rw [TokWF_chr_cons] at h
        simp only [Bool.and_eq_true, Bool.not_eq_true'] at h
        exact h.1.1
      show (c :: untok us).dropWhile isWS = c :: untok us
      rw [List.dropWhile_cons_of_neg (by simp [hc])]
    | punct p =>
      have hp : isPunct p = true := by
        rw [TokWF_punct_cons] at h
        simp only [Bool.and_eq_true] at h
        exact h.1
      show (p :: untok us).dropWhile isWS = p :: untok us
      rw [List.dropWhile_cons_of_neg (by simp [not_ws_of_punct hp])]

theorem untok_dropGap_eq {ts : List Tok} (h : TokWF ts = true) :
    (untok ts).dropWhile isWS = untok (dropGap ts) := by
  cases ts with
  | nil => rfl
  | cons t us =>
    cases t with
    | gap =>
      have h2 : TokWF us = true := TokWF_tail h
      have hg : ∀ vs, us ≠ Tok.gap :: vs := by
        intro vs hvs
        rw [hvs, TokWF_gap_gap] at h
        exact absurd h (by simp)
      show (' ' :: untok us).dropWhile isWS = untok us
      rw [List.dropWhile_cons_of_pos (by simp [isWS])]
      exact untok_dropWhile_self h2 hg
    | chr c =>
      exact untok_dropWhile_self h (by intro us2 h2; exact Tok.noConfusion (List.head_eq_of_cons_eq h2))
    | punct p =>
      exact untok_dropWhile_self h (by intro us2 h2; exact Tok.noConfusion (List.head_eq_of_cons_eq h2))

theorem TokWF_dropGap {ts : List Tok} (h : TokWF ts = true) :
    TokWF (dropGap ts) = true := by
  cases ts with
  | nil => exact h
  | cons t us =>
    cases t with
    | gap => exact TokWF_tail h
    | chr c => exact h
    | punct p => exact h

/-- The punctuation-spacing phase of `normalize_text` is the concretization
of the scrubbed token stream. -/
theorem punctSub_untok_eq : ∀ ts : List Tok, TokWF ts = true →
    punctSub (untok ts) = untokR (scrub ts) := by
  intro ts
  induction ts using scrub.induct with
  | case1 =>
    intro _
    show punctSub [] = untokR (scrub [])
    rw [punctSub_nil, scrub_nil]
    rfl
  | case2 p rest ih =>
    intro h
    have hp : isPunct p = true := by
      rw [TokWF_punct_cons] at h
      simp only [Bool.and_eq_true] at h
      exact h.1
    have hrest : TokWF rest = true := TokWF_tail h
    show punctSub (p :: untok rest) = untokR (scrub (Tok.punct p :: rest))
    rw [punctSub_cons_punct hp, untok_dropGap_eq hrest, scrub_punct_cons,
      ih (TokWF_dropGap hrest)]
    rfl
  | case3 p rest ih =>
    intro h
    have h2 : TokWF (Tok.punct p :: rest) = true := by
      rw [TokWF_gap_punct] at h; exact h
    have hp : isPunct p = true := by
      rw [TokWF_punct_cons] at h2
      simp only [Bool.and_eq_true] at h2
      exact h2.1
    have hrest : TokWF rest = true := TokWF_tail h2
    show punctSub (' ' :: p :: untok rest)
      = untokR (scrub (Tok.gap :: Tok.punct p :: rest))
    have hd : (p :: untok rest).dropWhile isWS = p :: untok rest := by
      rw [List.dropWhile_cons_of_neg (by simp [not_ws_of_punct hp])]
    rw [punctSub_cons_ws_punct (by decide) hd hp, untok_dropGap_eq hrest,
      scrub_gap_punct, ih (TokWF_dropGap hrest)]
    rfl
  | case4 rest hnp ih =>
    intro h
    cases rest with
    | nil =>
      show punctSub [' '] = untokR (scrub [Tok.gap])
      rw [punctSub_cons_ws_nil (by decide) (by rfl), punctSub_nil,
        scrub_gap_nil]
      rfl
    | cons u us =>
      cases u with
      | punct q => exact absurd (hnp q us rfl) (fun h2 => h2)
      | gap =>
        rw [TokWF_gap_gap] at h
        exact absurd h (by simp)
      | chr c =>
        have h2 : TokWF (Tok.chr c :: us) = true := by
          rw [TokWF_gap_chr] at h; exact h
        have hcw : isWS c = false := by
          rw [TokWF_chr_cons] at h2
          simp only [Bool.and_eq_true, Bool.not_eq_true'] at h2
          exact h2.1.1
        have hcp : isPunct c = false := by
          rw [TokWF_chr_cons] at h2
          simp only [Bool.and_eq_true, Bool.not_eq_true'] at h2
          exact h2.1.2
        show punctSub (' ' :: c :: untok us)
          = untokR (scrub (Tok.gap :: Tok.chr c :: us))
        have hd : (c :: untok us).dropWhile isWS = c :: untok us := by
          rw [List.dropWhile_cons_of_neg (by simp [hcw])]
        rw [punctSub_cons_ws_nonpunct (by decide) hd hcp, scrub_gap_chr]
        have h3 := ih h2
        simp only [untok] at h3
        rw [h3]
        rfl
  | case5 c rest ih =>
    intro h
    have hcw : isWS c = false := by
      rw [TokWF_chr_cons] at h
      simp only [Bool.and_eq_true, Bool.not_eq_true'] at h
      exact h.1.1
    have hcp : isPunct c = false := by
      rw [TokWF_chr_cons] at h
      simp only [Bool.and_eq_true, Bool.not_eq_true'] at h
      exact h.1.2
    have hrest : TokWF rest = true := TokWF_tail h
    show punctSub (c :: untok rest) = untokR (scrub (Tok.chr c :: rest))
    rw [punctSub_cons_other hcw hcp, scrub_chr_cons, ih hrest]
    rfl

/-- `tokenize` produces well-formed token streams. -/
theorem tokenize_TokWF (s : List Char) : TokWF (tokenize s) = true := by
  induction s using tokenize.induct with
  | case1 => rw [tokenize_nil]; rfl
  | case2 c rest hc ih =>
    rw [tokenize_cons_ws hc]
    cases hX : tokenize (rest.dropWhile isWS) with
    | nil => rw [TokWF_gap_nil]
    | cons t us =>
      cases t with
      | gap =>
        exfalso
        have h1 := tokenize_dropWhile_not_gap rest
        rw [hX, List.dropWhile_cons_of_pos (by simp)] at h1
        have h2 := length_dropWhile_le (fun x : Tok => decide (x = Tok.gap)) us
        rw [h1] at h2
        simp at h2
      | chr c2 =>
        rw [TokWF_gap_chr, ← hX]
        exact ih
      | punct p =>
        rw [TokWF_gap_punct, ← hX]
        exact ih
  | case3 c rest hw hp ih =>
    rw [tokenize_cons_punct (by simpa using hw) hp, TokWF_punct_cons]
    simp [hp, ih]
  | case4 c rest hw hp ih =>
    rw [tokenize_cons_chr (by simpa using hw) (by simpa using hp),
      TokWF_chr_cons]
    simp only [Bool.and_eq_true, Bool.not_eq_true']
    exact ⟨⟨by simpa using hw, by simpa using hp⟩, ih⟩

theorem TokWF_dropWhile_gap {ts : List Tok} (h : TokWF ts = true) :
    TokWF (ts.dropWhile (· = Tok.gap)) = true := by
  induction ts with
  | nil => exact h
  | cons t us ih =>
    cases t with
    | gap =>
      rw [List.dropWhile_cons_of_pos (by simp)]
      exact ih (TokWF_tail h)
    | chr c => rw [List.dropWhile_cons_of_neg (by simp)]; exact h
    | punct p => rw [List.dropWhile_cons_of_neg (by simp)]; exact h

theorem dropGapLast_gap_cons_of_nil {ts : List Tok}
    (h : dropGapLast ts = []) : dropGapLast (Tok.gap :: ts) = [] := by
  simp [dropGapLast, h]

theorem dropGapLast_head {ts : List Tok} {r : Tok} {rs : List Tok}
    (h : dropGapLast ts = r :: rs) : ∃ us, ts = r :: us := by
  cases ts with
  | nil => exact absurd h (by rw [dropGapLast_nil]; simp)
  | cons u us =>
    cases h1 : dropGapLast us with
    | nil =>
      by_cases hu : u = Tok.gap
      · rw [hu, dropGapLast_gap_cons_of_nil h1] at h
        exact absurd h (by simp)
      · rw [dropGapLast_cons_of_nil h1 hu] at h
        cases h
        exact ⟨us, rfl⟩
    | cons a as =>
      rw [dropGapLast_cons_of_ne_nil (by simp [h1])] at h
      cases h
      exact ⟨us, rfl⟩

theorem TokWF_single {t : Tok} {ts : List Tok} (h : TokWF (t :: ts) = true) :
    TokWF [t] = true := by
  cases t with
  | chr c =>
    rw [TokWF_chr_cons] at h ⊢
    simp only [Bool.and_eq_true] at h ⊢
    exact ⟨h.1, rfl⟩
  | punct p =>
    rw [TokWF_punct_cons] at h ⊢
    simp only [Bool.and_eq_true] at h ⊢
    exact ⟨h.1, rfl⟩
  | gap => rw [TokWF_gap_nil]

theorem TokWF_dropGapLast {ts : List Tok} (h : TokWF ts = true) :
    TokWF (dropGapLast ts) = true := by
  induction ts with
  | nil => exact h
  | cons t us ih =>
    have hus := ih (TokWF_tail h)
    cases h1 : dropGapLast us with
    | nil =>
      by_cases ht : t = Tok.gap
      · rw [ht, dropGapLast_gap_cons_of_nil h1]
        rfl
      · rw [dropGapLast_cons_of_nil h1 ht]
        exact TokWF_single h
    | cons r rs =>
      rw [dropGapLast_cons_of_ne_nil (by simp [h1]), h1]
      rw [h1] at hus
      obtain ⟨vs, hvs⟩ := dropGapLast_head h1
      cases t with
      | chr c =>
        rw [TokWF_chr_cons] at h ⊢
        simp only [Bool.and_eq_true] at h ⊢
        exact ⟨h.1, hus⟩
      | punct p =>
        rw [TokWF_punct_cons] at h ⊢
        simp only [Bool.and_eq_true] at h ⊢
        exact ⟨h.1, hus⟩
      | gap =>
        cases r with
        | gap =>
          rw [hvs, TokWF_gap_gap] at h
          exact absurd h (by simp)
        | chr c =>
          rw [TokWF_gap_chr]
          exact hus
        | punct p =>
          rw [TokWF_gap_punct]
          exact hus

theorem TokWF_trimGaps {ts : List Tok} (h : TokWF ts = true) :
    TokWF (trimGaps ts) = true :=
  TokWF_dropGapLast (TokWF_dropWhile_gap h)

/-- Factorization of `normalize_text` through the abstraction: the normalized
text depends only on the `abstractForm` of its input. -/
theorem normalize_text_eq_render (s : List Char) :
    normalize_text s = render (abstractForm s) := by
  unfold normalize_text render abstractForm
  rw [collapse_strip_eq (lowerText s),
    punctSub_untok_eq _ (TokWF_trimGaps (tokenize_TokWF (lowerText s)))]

/-- Sorting is invariant under permutation of the input. -/
theorem sortTexts_perm_eq {l1 l2 : List (List Char)} (h : l1.Perm l2) :
    sortTexts l1 = sortTexts l2 := by
  apply List.eq_of_perm_of_sorted
    (r := fun a b : List Char => a ≤ b)
  · exact ((List.perm_insertionSort _ l1).trans h).trans
      (List.perm_insertionSort _ l2).symm
  · exact List.sorted_insertionSort _ l1
  · exact List.sorted_insertionSort _ l2

theorem normalize_eq_of_differ {s t : List Char}
    (h : DifferOnlyInCaseWsPunct s t) : normalize_text s = normalize_text t := by
  rw [normalize_text_eq_render, normalize_text_eq_render, h]

theorem map_normalize_eq_of_forall2 {o1 o2 : List (List Char)}
    (h : List.Forall₂ DifferOnlyInCaseWsPunct o1 o2) :
    o1.map normalize_text = o2.map normalize_text := by
  induction h with
  | nil => rfl
  | cons h1 h2 ih => simp [normalize_eq_of_differ h1, ih]

theorem isEmpty_eq_of_length_eq {l1 l2 : List (List Char)}
    (h : l1.length = l2.length) : l1.isEmpty = l2.isEmpty := by
  cases l1 <;> cases l2 <;> simp_all

theorem gch_congr {q1 a1 q2 a2 : List Char} {o1 o2 : List (List Char)}
    (hq : normalize_text q1 = normalize_text q2)
    (ha : normalize_text a1 = normalize_text a2)
    (ho : o1.map normalize_text = o2.map normalize_text)
    (he : o1.isEmpty = o2.isEmpty) :
    generate_content_hash q1 a1 o1 = generate_content_hash q2 a2 o2 := by
  simp only [generate_content_hash, hq, ha, ho, he]

/-- Claim C4: for every pair of (prompt, answer, options) triples whose
corresponding texts differ only in casing, in runs of whitespace, or in
spacing around the punctuation characters `.!?,:;`, the computed content
hash is identical; and for every permutation of the options list the content
hash is unchanged. -/
theorem C4_content_hash_normalization :
    (∀ (q1 a1 q2 a2 : List Char) (o1 o2 : List (List Char)),
        DifferOnlyInCaseWsPunct q1 q2 → DifferOnlyInCaseWsPunct a1 a2 →
        List.Forall₂ DifferOnlyInCaseWsPunct o1 o2 →
        generate_content_hash q1 a1 o1 = generate_content_hash q2 a2 o2)
    ∧ (∀ (q a : List Char) (o1 o2 : List (List Char)), o1.Perm o2 →
        generate_content_hash q a o1 = generate_content_hash q a o2) := by
  constructor
  · intro q1 a1 q2 a2 o1 o2 hq ha ho
    exact gch_congr (normalize_eq_of_differ hq) (normalize_eq_of_differ ha)
      (map_normalize_eq_of_forall2 ho)
      (isEmpty_eq_of_length_eq ho.length_eq)
  · intro q a o1 o2 hperm
    have hs := sortTexts_perm_eq (hperm.map normalize_text)
    have he : o1.isEmpty = o2.isEmpty := isEmpty_eq_of_length_eq hperm.length_eq
    simp only [generate_content_hash, hs, he]

/-- Witness for claim C4 at the canonical-hash-stability inputs of the
spec: a casing/whitespace/punctuation variant with permuted options hashes
identically. -/
theorem C4_content_hash_normalization_witness :
    generate_content_hash ("What is 2+2?".toList) ("4".toList)
        ["3".toList, "4".toList, "5".toList, "6".toList]
      = generate_content_hash ("  what IS 2+2 ?  ".toList) ("4".toList)
        ["5".toList, "4".toList, "6".toList, "3".toList] := by
  have h := C4_content_hash_normalization
  refine (h.1 ("What is 2+2?".toList) ("4".toList)
      ("  what IS 2+2 ?  ".toList) ("4".toList)
      ["3".toList, "4".toList, "5".toList, "6".toList]
      ["3".toList, "4".toList, "5".toList, "6".toList]
      (by
      simp [DifferOnlyInCaseWsPunct, abstractForm, lowerText, trimGaps,
        tokenize, scrub, dropGapLast, dropGap, isWS, isPunct, String.toList]) (by
      simp [DifferOnlyInCaseWsPunct, abstractForm, lowerText, trimGaps,
        tokenize, scrub, dropGapLast, dropGap, isWS, isPunct, String.toList]) ?_).trans
    (h.2 ("  what IS 2+2 ?  ".toList) ("4".toList)
      ["3".toList, "4".toList, "5".toList, "6".toList]
      ["5".toList, "4".toList, "6".toList, "3".toList] (by decide))
  refine List.Forall₂.cons (by
      simp [DifferOnlyInCaseWsPunct, abstractForm, lowerText, trimGaps,
        tokenize, scrub, dropGapLast, dropGap, isWS, isPunct, String.toList]) ?_
  refine List.Forall₂.cons (by
      simp [DifferOnlyInCaseWsPunct, abstractForm, lowerText, trimGaps,
        tokenize, scrub, dropGapLast, dropGap, isWS, isPunct, String.toList]) ?_
  refine List.Forall₂.cons (by
      simp [DifferOnlyInCaseWsPunct, abstractForm, lowerText, trimGaps,
        tokenize, scrub, dropGapLast, dropGap, isWS, isPunct, String.toList]) ?_
  exact List.Forall₂.cons (by
      simp [DifferOnlyInCaseWsPunct, abstractForm, lowerText, trimGaps,
        tokenize, scrub, dropGapLast, dropGap, isWS, isPunct, String.toList]) List.Forall₂.nil

/-! ## Application model: store, users, assignments, jobs (`backend/main.py`,
`backend/models.py`) -/

/-- Row of the `users` table (`models.py`). -/
structure UserRec where
  id : Nat
  email : List Char
deriving DecidableEq, Repr

/-- Row of the `questions` table (`models.py`): `options` is kept as the
decoded list; `hash` is the content hash. -/
structure Question where
  id : Nat
  prompt : List Char
  options : List (List Char)
  answer : List Char
  topic : List Char
  min_age : Int
  max_age : Int
  hash : List Char
deriving DecidableEq, Repr

/-- Row of the `user_questions` assignment table (`models.py`). -/
structure UserQuestion where
  user_id : Nat
  question_id : Nat
  seen : Bool
deriving DecidableEq, Repr

/-- Job lifecycle states (`JobStatus` enum in `main.py`). -/
inductive JobStatus where
  | pending
  | running
  | completed
  | failed
deriving DecidableEq, Repr

/-- Entry of the in-memory `job_storage` map (`main.py`). -/
structure Job where
  user_email : List Char
  status : JobStatus
  target_count : Nat
  generated_count : Nat
  auto_triggered : Bool
  completed_at : Option Rat
deriving DecidableEq, Repr

/-- The mutable state touched by the supply read and import paths: the
database tables, the in-memory job map (keyed by a fresh identifier
abstracting `uuid4`), and the metrics counters the read path increments. -/
structure AppState where
  users : List UserRec
  questions : List Question
  user_questions : List UserQuestion
  jobs : List (Nat × Job)
  next_question_id : Nat
  next_job_id : Nat
  jobs_enqueued : Nat
  auto_triggers : Nat
deriving DecidableEq, Repr

/-- Age scoping of the supply read: `Question.min_age <= age <= Question.max_age`
when an age is given. -/
def ageFilter (questions : List Question) (age : Option Int) : List Question :=
  match age with
  | some a => questions.filter
      (fun q : Question => decide (q.min_age ≤ a) && decide (a ≤ q.max_age))
  | none => questions

/-- Topic scoping of the supply read: case-insensitive substring match,
disabled for the reserved token `random` (any casing). -/
def topicFilter (questions : List Question) (topic : Option (List Char)) :
    List Question :=
  match topic with
  | some t =>
    if lowerText t == "random".toList then questions
    else questions.filter
      (fun q : Question => decide (lowerText t <:+: lowerText q.topic))
  | none => questions

/-- The question ids already assigned to the user. -/
def assignedIds (st : AppState) (user : UserRec) : List Nat :=
  (st.user_questions.filter
      (fun uq : UserQuestion => uq.user_id == user.id)).map
    (fun uq : UserQuestion => uq.question_id)

/-- The questions the supply read serves: scoped by age and topic, not yet
assigned to the user, truncated to `limit`. -/
def availableQuestions (st : AppState) (user : UserRec) (limit : Nat)
    (age : Option Int) (topic : Option (List Char)) : List Question :=
  ((topicFilter (ageFilter st.questions age) topic).filter
      (fun q : Question => !((assignedIds st user).contains q.id))).take limit

/-- Model of `GET /questions` (`get_questions` in `main.py`), after bearer
token verification resolved `email`.  Returns the served questions (or the
HTTP error status) together with the updated state.  Steps follow the
source: resolve the user (404 when absent), filter by age band, by
case-insensitive topic substring unless the topic is `random`, exclude
questions already assigned to the user, take `limit`, return early when
nothing is available, otherwise record the assignments and auto-trigger a
background job when fewer than `limit` questions were served and the user
has no pending or running job. -/
def get_questions (st : AppState) (email : List Char) (limit : Nat)
    (age : Option Int) (topic : Option (List Char)) :
    Except Nat (List Question) × AppState :=
  match st.users.find? (fun u => u.email == email) with
  | none => (Except.error 404, st)
  | some user =>
    let available := availableQuestions st user limit age topic
    if available.isEmpty then
      (Except.ok [], st)
    else
      let st1 := { st with
        user_questions := st.user_questions ++ available.map
          (fun q : Question =>
            ({ user_id := user.id, question_id := q.id, seen := false }
              : UserQuestion)) }
      let st2 :=
        if available.length < limit then
          let deficit := limit - available.length
          let user_has_active_job := st1.jobs.any (fun jb : Nat × Job =>
            jb.2.user_email == email
              && (jb.2.status == JobStatus.pending
                  || jb.2.status == JobStatus.running))
          if !user_has_active_job then
            let target_count := max deficit 5
            { st1 with
              jobs := st1.jobs ++ [(st1.next_job_id,
                ({ user_email := email, status := JobStatus.pending,
                   target_count := target_count, generated_count := 0,
                   auto_triggered := true, completed_at := none } : Job))],
              next_job_id := st1.next_job_id + 1,
              jobs_enqueued := st1.jobs_enqueued + 1,
              auto_triggers := st1.auto_triggers + 1 }
          else st1
        else st1
      (Except.ok available, st2)

/-- Element of the import request body (`QuestionImport` in `main.py`). -/
structure QuestionImport where
  prompt : List Char
  options : List (List Char)
  answer : List Char
  topic : List Char
  min_age : Int
  max_age : Int
deriving DecidableEq, Repr

/-- Import response counters (`ImportResponse` in `main.py`). -/
structure ImportResponse where
  imported_count : Nat
  skipped_count : Nat
  total_questions : Nat
deriving DecidableEq, Repr

/-- The content hash the import and generation paths compute for an
incoming question. -/
def importHash (qi : QuestionImport) : List Char :=
  generate_content_hash qi.prompt qi.answer qi.options

/-- The per-element loop of `import_questions`: skip when a question with
the same content hash is already present (the pending inserts of the same
batch are visible to the duplicate query), insert otherwise. -/
def importLoop : AppState → Nat → Nat → List QuestionImport →
    AppState × Nat × Nat
  | st, imported, skipped, [] => (st, imported, skipped)
  | st, imported, skipped, qi :: rest =>
    let content_hash := importHash qi
    if st.questions.any (fun q : Question => q.hash == content_hash) then
      importLoop st imported (skipped + 1) rest
    else
      importLoop
        { st with
          questions := st.questions ++ [{
            id := st.next_question_id, prompt := qi.prompt,
            options := qi.options, answer := qi.answer, topic := qi.topic,
            min_age := qi.min_age, max_age := qi.max_age,
            hash := content_hash }],
          next_question_id := st.next_question_id + 1 }
        (imported + 1) skipped rest

/-- Model of `POST /questions/import` (`import_questions` in `main.py`). -/
def import_questions (st : AppState) (request : List QuestionImport) :
    AppState × ImportResponse :=
  let result := importLoop st 0 0 request
  (result.1, { imported_count := result.2.1, skipped_count := result.2.2,
               total_questions := result.1.questions.length })

/-! ## Telemetry (`Metrics` in `main.py`) -/

/-- The metrics counters; `start_time` in seconds (rationals model the
real-valued clock exactly). -/
structure Metrics where
  jobs_enqueued : Nat
  jobs_completed : Nat
  jobs_failed : Nat
  questions_generated : Nat
  duplicates_skipped : Nat
  auto_triggers : Nat
  manual_triggers : Nat
  start_time : Rat
deriving DecidableEq, Repr

/-- The derived fields of `Metrics.to_dict`. -/
structure MetricsView where
  jobs_enqueued : Nat
  jobs_completed : Nat
  jobs_failed : Nat
  questions_generated : Nat
  duplicates_skipped : Nat
  auto_triggers : Nat
  manual_triggers : Nat
  success_rate : Rat
  uptime_seconds : Rat
  questions_per_minute : Rat
deriving DecidableEq, Repr

/-- Model of `Metrics.to_dict` (`main.py`), with the current wall clock as
an explicit parameter. -/
def Metrics.to_dict (m : Metrics) (now : Rat) : MetricsView :=
  let uptime := now - m.start_time
  { jobs_enqueued := m.jobs_enqueued
    jobs_completed := m.jobs_completed
    jobs_failed := m.jobs_failed
    questions_generated := m.questions_generated
    duplicates_skipped := m.duplicates_skipped
    auto_triggers := m.auto_triggers
    manual_triggers := m.manual_triggers
    success_rate := (m.jobs_completed : Rat) / (max m.jobs_enqueued 1 : Nat) * 100
    uptime_seconds := uptime
    questions_per_minute := (m.questions_generated : Rat) / max (uptime / 60) 1 }

/-! ## Background generation worker (`generate_questions_background`) -/

/-- Outcome of one loop iteration of the worker: the generation call or its
validation failed (logged, loop continues), the question was a content-hash
duplicate, the insert hit a database conflict, or the question was stored. -/
inductive GenOutcome where
  | invalid
  | duplicate
  | dbConflict
  | inserted
deriving DecidableEq, Repr

/-- The job fields the worker mutates. -/
structure JobSnapshot where
  status : JobStatus
  target_count : Nat
  generated_count : Nat
deriving DecidableEq, Repr

/-- Effect of one loop iteration on the job: only a successful insert
increments `generated_count`; no iteration touches `status`. -/
def runIter (s : JobSnapshot) (o : GenOutcome) : JobSnapshot :=
  match o with
  | GenOutcome.inserted => { s with generated_count := s.generated_count + 1 }
  | _ => s

/-- Where an unhandled fault caught by the worker's outer exception
handler occurs.  The handler's `try` block covers the generation loop and
also the completion block that runs after the Completed status was
written (the WebSocket completion send and `db.close()`), so there are
three shapes of run: no fault, a fault before the Completed write, and a
fault after it — in which case the handler overwrites Completed with
Failed. -/
inductive WorkerFault where
  | noFault
  | beforeComplete
  | afterComplete
deriving DecidableEq, Repr

/-- Model of `generate_questions_background` (`main.py`) as the trace of job
snapshots it writes to `job_storage`: the Pending snapshot at enqueue time,
the Running snapshot, one snapshot per loop iteration (at most
`target_count` of them; a fault can truncate the loop), then the terminal
writes.  A run without a fault ends with the single Completed write; a
fault before the Completed write ends with the single Failed write; a
fault in the completion block — after the Completed status was already
stored — makes the outer handler write Failed on top of Completed, so the
trace ends Completed, Failed. -/
def generate_questions_background (target_count : Nat)
    (outcomes : List GenOutcome) (fault : WorkerFault) : List JobSnapshot :=
  let s0 : JobSnapshot :=
    { status := JobStatus.pending, target_count := target_count,
      generated_count := 0 }
  let s1 : JobSnapshot := { s0 with status := JobStatus.running }
  let loop := outcomes.scanl runIter s1
  let last := outcomes.foldl runIter s1
  s0 :: loop ++
    (match fault with
     | WorkerFault.noFault => [{ last with status := JobStatus.completed }]
     | WorkerFault.beforeComplete => [{ last with status := JobStatus.failed }]
     | WorkerFault.afterComplete =>
        [{ last with status := JobStatus.completed },
         { last with status := JobStatus.failed }])

/-- Model of `cleanup_old_jobs` (`main.py`): removes terminal jobs whose
`completed_at` is older than `max_age_hours`. -/
def cleanup_old_jobs (jobs : List (Nat × Job)) (now : Rat)
    (max_age_hours : Rat) : List (Nat × Job) :=
  jobs.filter (fun jb : Nat × Job =>
    !((jb.2.status == JobStatus.completed || jb.2.status == JobStatus.failed)
      && (match jb.2.completed_at with
          | some t => decide ((now - t) / 3600 > max_age_hours)
          | none => false)))

deriving instance DecidableEq for Except

/-! ## Concrete fixtures used by the claim theorems and witnesses -/

/-- Recipient A of the end-to-end scenarios. -/
def userA : UserRec := { id := 1, email := "a@example.com".toList }

/-- A stored question with the given id and (abstract) content hash. -/
def fixtureQ (i : Nat) (h : List Char) : Question :=
  { id := i, prompt := h, options := ["A".toList, "B".toList, "C".toList, "D".toList],
    answer := "A".toList, topic := "Space".toList, min_age := 8, max_age := 15,
    hash := h }

/-- State with recipient A and an empty question store. -/
def stEmpty : AppState :=
  { users := [userA], questions := [], user_questions := [], jobs := [],
    next_question_id := 1, next_job_id := 1, jobs_enqueued := 0,
    auto_triggers := 0 }

/-- State with recipient A and one stored question. -/
def stOne : AppState := { stEmpty with questions := [fixtureQ 1 "h1".toList] }

/-- State with recipient A and three stored questions. -/
def stThree : AppState :=
  { stEmpty with questions :=
      [fixtureQ 1 "h1".toList, fixtureQ 2 "h2".toList, fixtureQ 3 "h3".toList] }

/-! ## Claim C9 -/

/-- Claim C9: a call to `GET /questions` with `limit = 0` by an
authenticated, existing recipient returns the empty list, inserts no
assignment rows and enqueues no job, for every store state — the result is
the empty list and the state is returned unchanged. -/
theorem C9_limit_zero (st : AppState) (email : List Char)
    (age : Option Int) (topic : Option (List Char))
    (h : (st.users.find? (fun u => u.email == email)).isSome) :
    get_questions st email 0 age topic = (Except.ok [], st) := by
  obtain ⟨user, huser⟩ := Option.isSome_iff_exists.mp h
  simp only [get_questions, huser]
  simp [availableQuestions]

/-- Witness for claim C9 at a concrete populated store. -/
theorem C9_limit_zero_witness :
    (stThree.users.find?
        (fun u => u.email == "a@example.com".toList)).isSome
    ∧ get_questions stThree ("a@example.com".toList) 0 none none
        = (Except.ok [], stThree) :=
  ⟨by decide, C9_limit_zero stThree ("a@example.com".toList) none none (by decide)⟩

/-! ## Claim C5 -/

/-- State whose user table does not contain the ghost recipient. -/
def c5state : AppState := stThree

/-- Counterexample for claim C5: at a concrete state with no recipient
record for the authenticated identity, `GET /questions` does not create the
recipient and proceed — it fails with a 404 error and leaves the user table
unchanged, refuting the claim at this input. -/
theorem C5_counterexample :
    ¬ ((get_questions c5state ("ghost@example.com".toList) 5 none none).1
          ≠ Except.error 404
        ∨ (get_questions c5state ("ghost@example.com".toList) 5 none
            none).2.users ≠ c5state.users) := by
  decide

/-- Claim C5 as amended: when no recipient record exists for the token
identity, `GET /questions` fails with a 404 ("User not found") error and
changes nothing; recipients are created by the authentication callback, not
by the supply read. -/
theorem C5_amended (st : AppState) (email : List Char) (limit : Nat)
    (age : Option Int) (topic : Option (List Char))
    (h : st.users.find? (fun u => u.email == email) = none) :
    get_questions st email limit age topic = (Except.error 404, st) := by
  simp only [get_questions, h]

/-- Witness for the amended claim C5. -/
theorem C5_amended_witness :
    c5state.users.find?
        (fun u => u.email == "ghost@example.com".toList) = none
    ∧ get_questions c5state ("ghost@example.com".toList) 5 none none
        = (Except.error 404, c5state) :=
  ⟨by decide,
   C5_amended c5state ("ghost@example.com".toList) 5 none none (by decide)⟩

/-! ## Claim C1 -/

/-- Claim C1 (divergence record): with an empty question store, a first
authenticated `GET /questions?limit=5` by recipient A returns the empty
list but — because `get_questions` returns early before the auto-trigger
block when no question is available — leaves the state unchanged with NO
job at all (the claim and the repository test
`test_auto_trigger_integration` expect exactly one auto-triggered job with
`target_count = 5`); the second identical call again returns the empty list
and the job store stays empty. -/
theorem C1_empty_store_auto_trigger_eval :
    get_questions stEmpty ("a@example.com".toList) 5 none none
        = (Except.ok [], stEmpty)
    ∧ (get_questions
        (get_questions stEmpty ("a@example.com".toList) 5 none none).2
        ("a@example.com".toList) 5 none none).1 = Except.ok []
    ∧ (get_questions
        (get_questions stEmpty ("a@example.com".toList) 5 none none).2
        ("a@example.com".toList) 5 none none).2.jobs = [] := by
  decide

/-! ## Claim C2 -/

/-- Claim C2 (divergence record): the auto-trigger policy of
`get_questions`.  First conjunct — failing case: with zero questions
selected (empty store) and no active job, the code enqueues NO job, while
the claim requires exactly one job with `target_count = max(10 − 0, 5) =
10`.  Remaining conjuncts — the policy does hold when at least one but
fewer than `limit` questions are selected: serving one question against
`limit = 2` enqueues exactly one job owned by the recipient with
`target_count = max(2 − 1, 5) = 5` and `auto_triggered = true`, and a
recipient with a pending job gets no second job. -/
theorem C2_auto_trigger_eval :
    ((get_questions stEmpty ("a@example.com".toList) 10 none none).2.jobs
        = [])
    ∧ ((get_questions stOne ("a@example.com".toList) 2 none none).1
        = Except.ok [fixtureQ 1 "h1".toList])
    ∧ ((get_questions stOne ("a@example.com".toList) 2 none none).2.jobs.map
        (fun jb => (jb.2.user_email, jb.2.status, jb.2.target_count,
          jb.2.auto_triggered))
        = [("a@example.com".toList, JobStatus.pending, 5, true)])
    ∧ ((get_questions
          ((get_questions stOne ("a@example.com".toList) 2 none none).2)
          ("a@example.com".toList) 2 none none).2.jobs.length = 1) := by
  decide

/-! ## Claim C7 -/

/-- Concrete counters: one job enqueued and completed, seven questions
generated, measured 30 seconds after start. -/
def c7metrics : Metrics :=
  { jobs_enqueued := 1, jobs_completed := 1, jobs_failed := 0,
    questions_generated := 7, duplicates_skipped := 0, auto_triggers := 0,
    manual_triggers := 0, start_time := 0 }

/-- Counterexample for claim C7: with one job enqueued and completed and
seven questions generated over a 30-second uptime, the view reports
`success_rate = 100` (a percentage, not the claimed ratio `1`) and
`questions_per_minute = 7` (the divisor `uptime / 60` is clamped to at
least `1`, not the claimed `7 / (30/60) = 14`), refuting both equations of
the claim at this input. -/
theorem C7_counterexample :
    ¬ ((c7metrics.to_dict 30).success_rate
          = (c7metrics.jobs_completed : Rat) / (max c7metrics.jobs_enqueued 1 : Nat)
        ∧ (c7metrics.to_dict 30).questions_per_minute
          = (c7metrics.questions_generated : Rat)
              / ((30 - c7metrics.start_time) / 60)) := by
  intro h
  have h1 := h.1
  norm_num [Metrics.to_dict, c7metrics] at h1

/-- Claim C7 as amended: `success_rate` is the percentage
`jobs_completed / max(jobs_enqueued, 1) * 100`, and `questions_per_minute`
equals `questions_generated` divided by the uptime in minutes only once the
uptime reaches 60 seconds — for shorter (positive) uptimes the divisor is
clamped to one minute, so the view reports `questions_generated` itself. -/
theorem C7_amended (m : Metrics) (now : Rat) (h : m.start_time < now) :
    (m.to_dict now).success_rate * (max m.jobs_enqueued 1 : Nat)
        = (m.jobs_completed : Rat) * 100
    ∧ (60 ≤ now - m.start_time →
        (m.to_dict now).questions_per_minute * ((now - m.start_time) / 60)
          = (m.questions_generated : Rat))
    ∧ (now - m.start_time < 60 →
        (m.to_dict now).questions_per_minute
          = (m.questions_generated : Rat)) := by
  refine ⟨?_, ?_, ?_⟩
  · have hb : ((max m.jobs_enqueued 1 : Nat) : Rat) ≠ 0 := by
      have : 1 ≤ max m.jobs_enqueued 1 := le_max_right _ _
      exact Nat.cast_ne_zero.mpr (by omega)
    simp only [Metrics.to_dict]
    field_simp
  · intro hup
    have hm : max ((now - m.start_time) / 60) 1 = (now - m.start_time) / 60 :=
      max_eq_left (by linarith)
    have hnz : (now - m.start_time) / 60 ≠ 0 := by
      intro h0
      rw [h0] at hm
      have : (1 : Rat) ≤ 0 := by
        rw [← hm]
        linarith [le_max_right ((now - m.start_time) / 60) (1 : Rat)]
      linarith
    simp only [Metrics.to_dict, hm]
    exact div_mul_cancel₀ _ hnz
  · intro hup
    have hm : max ((now - m.start_time) / 60) 1 = 1 :=
      max_eq_right (by linarith)
    simp only [Metrics.to_dict, hm, div_one]

/-- Witness for the amended claim C7 at the counterexample counters: the
success rate satisfies the percentage equation and, the uptime being 30
seconds, the per-minute rate equals the raw `questions_generated`. -/
theorem C7_amended_witness :
    c7metrics.start_time < 30
    ∧ (c7metrics.to_dict 30).success_rate
        * (max c7metrics.jobs_enqueued 1 : Nat)
        = (c7metrics.jobs_completed : Rat) * 100
    ∧ (c7metrics.to_dict 30).questions_per_minute
        = (c7metrics.questions_generated : Rat) := by
  have h0 : c7metrics.start_time < 30 := by norm_num [c7metrics]
  have h := C7_amended c7metrics 30 h0
  exact ⟨h0, h.1, h.2.2 (by norm_num [c7metrics])⟩

/-! ## Claim C6 -/

theorem importLoop_fresh (batch : List QuestionImport) :
    ∀ (st : AppState) (imported skipped : Nat),
    (batch.map importHash).Nodup →
    (∀ qi ∈ batch, ∀ q ∈ st.questions, q.hash ≠ importHash qi) →
    (importLoop st imported skipped batch).2.1 = imported + batch.length
    ∧ (importLoop st imported skipped batch).2.2 = skipped
    ∧ (importLoop st imported skipped batch).1.questions.map
        (fun q => q.hash)
      = st.questions.map (fun q => q.hash) ++ batch.map importHash := by
  induction batch with
  | nil =>
    intro st imported skipped _ _
    simp [importLoop]
  | cons qi rest ih =>
    intro st imported skipped hnodup hfresh
    have hany : (st.questions.any
        (fun q : Question => q.hash == importHash qi)) = false := by
      rw [List.any_eq_false]
      intro q hq
      simpa using hfresh qi (List.mem_cons_self qi rest) q hq
    have hnotmem : importHash qi ∉ rest.map importHash := by
      have := hnodup
      simp only [List.map_cons, List.nodup_cons] at this
      exact this.1
    have hnodup2 : (rest.map importHash).Nodup := by
      have := hnodup
      simp only [List.map_cons, List.nodup_cons] at this
      exact this.2
    have hfresh2 : ∀ qi2 ∈ rest,
        ∀ q ∈ (st.questions ++ [{
          id := st.next_question_id, prompt := qi.prompt,
          options := qi.options, answer := qi.answer, topic := qi.topic,
          min_age := qi.min_age, max_age := qi.max_age,
          hash := importHash qi : Question }]), q.hash ≠ importHash qi2 := by
      intro qi2 hqi2 q hq
      rcases List.mem_append.mp hq with hold | hnew
      · exact hfresh qi2 (List.mem_cons_of_mem qi hqi2) q hold
      · rcases List.mem_singleton.mp hnew with rfl
        show importHash qi ≠ importHash qi2
        intro heq
        exact hnotmem (heq ▸ List.mem_map_of_mem importHash hqi2)
    have hrec := ih
      { st with
        questions := st.questions ++ [{
          id := st.next_question_id, prompt := qi.prompt,
          options := qi.options, answer := qi.answer, topic := qi.topic,
          min_age := qi.min_age, max_age := qi.max_age,
          hash := importHash qi }],
        next_question_id := st.next_question_id + 1 }
      (imported + 1) skipped hnodup2 hfresh2
    simp only [importLoop, hany, Bool.false_eq_true, if_false]
    refine ⟨?_, ?_, ?_⟩
    · rw [hrec.1]
      simp only [List.length_cons]
      omega
    · exact hrec.2.1
    · rw [hrec.2.2]
      simp [importHash]

theorem importLoop_present (batch : List QuestionImport) :
    ∀ (st : AppState) (imported skipped : Nat),
    (∀ qi ∈ batch, ∃ q ∈ st.questions, q.hash = importHash qi) →
    importLoop st imported skipped batch
      = (st, imported, skipped + batch.length) := by
  induction batch with
  | nil =>
    intro st imported skipped _
    simp [importLoop]
  | cons qi rest ih =>
    intro st imported skipped hp
    have hany : (st.questions.any
        (fun q : Question => q.hash == importHash qi)) = true := by
      rw [List.any_eq_true]
      obtain ⟨q, hq, hh⟩ := hp qi (List.mem_cons_self qi rest)
      exact ⟨q, hq, by simpa using hh⟩
    simp only [importLoop, hany, if_true]
    rw [ih st imported (skipped + 1)
      (fun qi2 h2 => hp qi2 (List.mem_cons_of_mem qi h2))]
    simp only [List.length_cons, Prod.mk.injEq, true_and]
    omega

theorem importLoop_append (xs ys : List QuestionImport) :
    ∀ (st : AppState) (imported skipped : Nat),
    importLoop st imported skipped (xs ++ ys)
      = importLoop (importLoop st imported skipped xs).1
          (importLoop st imported skipped xs).2.1
          (importLoop st imported skipped xs).2.2 ys := by
  induction xs with
  | nil =>
    intro st imported skipped
    simp [importLoop]
  | cons qi rest ih =>
    intro st imported skipped
    cases hc : st.questions.any
        (fun q : Question => q.hash == importHash qi) with
    | true =>
      simp only [List.cons_append, importLoop, hc, if_true]
      exact ih st imported (skipped + 1)
    | false =>
      simp only [List.cons_append, importLoop, hc, Bool.false_eq_true,
        if_false]
      exact ih _ (imported + 1) skipped

/-- Claim C6: importing a batch of `n` structurally valid questions whose
content hashes are pairwise distinct and absent from the store reports `n`
imported and `0` skipped; immediately importing the identical batch again
reports `0` imported and `n` skipped and leaves the question store
unchanged; and a batch of four in which the fourth entry duplicates the
content hash of the second reports `3` imported and `1` skipped. -/
theorem C6_import_idempotent :
    (∀ (st : AppState) (batch : List QuestionImport),
      (batch.map importHash).Nodup →
      (∀ qi ∈ batch, ∀ q ∈ st.questions, q.hash ≠ importHash qi) →
      (import_questions st batch).2.imported_count = batch.length
      ∧ (import_questions st batch).2.skipped_count = 0
      ∧ (import_questions (import_questions st batch).1
          batch).2.imported_count = 0
      ∧ (import_questions (import_questions st batch).1
          batch).2.skipped_count = batch.length
      ∧ (import_questions (import_questions st batch).1 batch).1.questions
          = (import_questions st batch).1.questions)
    ∧ (∀ (st : AppState) (q1 q2 q3 q4 : QuestionImport),
      ([q1, q2, q3].map importHash).Nodup →
      (∀ qi ∈ [q1, q2, q3], ∀ q ∈ st.questions, q.hash ≠ importHash qi) →
      importHash q4 = importHash q2 →
      (import_questions st [q1, q2, q3, q4]).2.imported_count = 3
      ∧ (import_questions st [q1, q2, q3, q4]).2.skipped_count = 1) := by
  constructor
  · intro st batch hnodup hfresh
    obtain ⟨h1, h2, h3⟩ := importLoop_fresh batch st 0 0 hnodup hfresh
    have hpresent : ∀ qi ∈ batch,
        ∃ q ∈ (importLoop st 0 0 batch).1.questions,
          q.hash = importHash qi := by
      intro qi hqi
      have hmem : importHash qi
          ∈ (importLoop st 0 0 batch).1.questions.map (fun q => q.hash) := by
        rw [h3]
        exact List.mem_append_right _ (List.mem_map_of_mem importHash hqi)
      obtain ⟨q, hq, hh⟩ := List.mem_map.mp hmem
      exact ⟨q, hq, hh⟩
    have h4 := importLoop_present batch (importLoop st 0 0 batch).1 0 0
      hpresent
    simp only [import_questions, h4, h1, h2]
    simp
  · intro st q1 q2 q3 q4 hnodup hfresh heq
    obtain ⟨h1, h2, h3⟩ := importLoop_fresh [q1, q2, q3] st 0 0 hnodup hfresh
    have happ := importLoop_append [q1, q2, q3] [q4] st 0 0
    have hpresent : ∀ qi ∈ [q4],
        ∃ q ∈ (importLoop st 0 0 [q1, q2, q3]).1.questions,
          q.hash = importHash qi := by
      intro qi hqi
      rcases List.mem_singleton.mp hqi with rfl
      have hmem : importHash q2
          ∈ (importLoop st 0 0 [q1, q2, q3]).1.questions.map
              (fun q => q.hash) := by
        rw [h3]
        refine List.mem_append_right _ ?_
        simp
      obtain ⟨q, hq, hh⟩ := List.mem_map.mp hmem
      exact ⟨q, hq, by rw [heq, hh]⟩
    have h4 := importLoop_present [q4] (importLoop st 0 0 [q1, q2, q3]).1
      (importLoop st 0 0 [q1, q2, q3]).2.1
      (importLoop st 0 0 [q1, q2, q3]).2.2 hpresent
    have hall : importLoop st 0 0 [q1, q2, q3, q4]
        = ((importLoop st 0 0 [q1, q2, q3]).1,
           (importLoop st 0 0 [q1, q2, q3]).2.1,
           (importLoop st 0 0 [q1, q2, q3]).2.2 + 1) := by
      have h5 : [q1, q2, q3, q4] = [q1, q2, q3] ++ [q4] := rfl
      rw [h5, happ, h4]
      simp
    simp only [import_questions, hall, h1, h2]
    simp

/-- Import-request fixture with a one-letter prompt (the other fields are
shared, so content hashes differ exactly when the prompts do). -/
def qiFixture (p : List Char) : QuestionImport :=
  { prompt := p, options := ["A".toList, "B".toList, "C".toList, "D".toList],
    answer := "A".toList, topic := "Science".toList, min_age := 8,
    max_age := 15 }

/-- Witness for claim C6: a two-element batch against the empty store
imports 2 and skips 0, re-importing it imports 0 and skips 2 leaving the
store unchanged, and the four-element batch whose fourth entry repeats the
second imports 3 and skips 1. -/
theorem C6_import_idempotent_witness :
    (([qiFixture "a".toList, qiFixture "b".toList].map importHash).Nodup
      ∧ (import_questions stEmpty
          [qiFixture "a".toList, qiFixture "b".toList]).2.imported_count = 2
      ∧ (import_questions stEmpty
          [qiFixture "a".toList, qiFixture "b".toList]).2.skipped_count = 0
      ∧ (import_questions
          (import_questions stEmpty
            [qiFixture "a".toList, qiFixture "b".toList]).1
          [qiFixture "a".toList, qiFixture "b".toList]).2.imported_count = 0
      ∧ (import_questions
          (import_questions stEmpty
            [qiFixture "a".toList, qiFixture "b".toList]).1
          [qiFixture "a".toList, qiFixture "b".toList]).2.skipped_count = 2
      ∧ (import_questions
          (import_questions stEmpty
            [qiFixture "a".toList, qiFixture "b".toList]).1
          [qiFixture "a".toList, qiFixture "b".toList]).1.questions
        = (import_questions stEmpty
            [qiFixture "a".toList, qiFixture "b".toList]).1.questions)
    ∧ ((import_questions stEmpty
          [qiFixture "a".toList, qiFixture "b".toList, qiFixture "c".toList,
           qiFixture "b".toList]).2.imported_count = 3
      ∧ (import_questions stEmpty
          [qiFixture "a".toList, qiFixture "b".toList, qiFixture "c".toList,
           qiFixture "b".toList]).2.skipped_count = 1) := by
  have hnd2 : ([qiFixture "a".toList,
      qiFixture "b".toList].map importHash).Nodup := by
    simp +decide [importHash, qiFixture, generate_content_hash, sortTexts,
      normalize_text, rstripSpaces, dropTrailing, punctSub, collapseWS,
      stripText, lowerText, isWS, isPunct, String.toList,
      List.insertionSort, List.orderedInsert, List.intercalate]
  have hnd3 : ([qiFixture "a".toList, qiFixture "b".toList,
      qiFixture "c".toList].map importHash).Nodup := by
    simp +decide [importHash, qiFixture, generate_content_hash, sortTexts,
      normalize_text, rstripSpaces, dropTrailing, punctSub, collapseWS,
      stripText, lowerText, isWS, isPunct, String.toList,
      List.insertionSort, List.orderedInsert, List.intercalate]
  have hfresh2 : ∀ qi ∈ [qiFixture "a".toList, qiFixture "b".toList],
      ∀ q ∈ stEmpty.questions, q.hash ≠ importHash qi := by
    intro qi _ q hq
    simp [stEmpty] at hq
  have hfresh3 : ∀ qi ∈ [qiFixture "a".toList, qiFixture "b".toList,
      qiFixture "c".toList], ∀ q ∈ stEmpty.questions,
      q.hash ≠ importHash qi := by
    intro qi _ q hq
    simp [stEmpty] at hq
  have h := C6_import_idempotent
  have hpart1 := h.1 stEmpty [qiFixture "a".toList, qiFixture "b".toList]
    hnd2 hfresh2
  have hpart2 := h.2 stEmpty (qiFixture "a".toList) (qiFixture "b".toList)
    (qiFixture "c".toList) (qiFixture "b".toList) hnd3 hfresh3 rfl
  exact ⟨⟨hnd2, hpart1.1, hpart1.2.1, hpart1.2.2.1, hpart1.2.2.2.1,
    hpart1.2.2.2.2⟩, hpart2⟩

/-! ## Claim C10 -/

/-- Claim C10: the content hash is computed only from prompt, answer and
options — topic and age band do not enter it — so importing a second
question with the same prompt, answer and options but a different topic or
age band is rejected as a duplicate (0 imported, 1 skipped, store
unchanged) rather than stored. -/
theorem C10_hash_ignores_topic_and_age :
    (∀ (qi1 qi2 : QuestionImport),
      qi1.prompt = qi2.prompt → qi1.answer = qi2.answer →
      qi1.options = qi2.options → importHash qi1 = importHash qi2)
    ∧ (∀ (st : AppState) (qi : QuestionImport),
      (∃ q ∈ st.questions, q.hash = importHash qi) →
      (import_questions st [qi]).2.imported_count = 0
      ∧ (import_questions st [qi]).2.skipped_count = 1
      ∧ (import_questions st [qi]).1.questions = st.questions) := by
  constructor
  · intro qi1 qi2 hp ha ho
    simp only [importHash, hp, ha, ho]
  · intro st qi hpresent
    have h := importLoop_present [qi] st 0 0 (by
      intro qi2 h2
      rcases List.mem_singleton.mp h2 with rfl
      exact hpresent)
    simp only [import_questions, h]
    simp

/-- The duplicate of `qiFixture "a"` under a different topic and age band. -/
def qiVariant : QuestionImport :=
  { prompt := (qiFixture "a".toList).prompt,
    options := (qiFixture "a".toList).options,
    answer := (qiFixture "a".toList).answer,
    topic := "History".toList, min_age := 1, max_age := 99 }

/-- Witness for claim C10: after importing `qiFixture "a"`, importing the
same content under topic `History` and ages 1–99 hashes identically and is
skipped, leaving the store unchanged. -/
theorem C10_hash_ignores_topic_and_age_witness :
    importHash (qiFixture "a".toList) = importHash qiVariant
    ∧ (import_questions
        (import_questions stEmpty [qiFixture "a".toList]).1
        [qiVariant]).2.imported_count = 0
    ∧ (import_questions
        (import_questions stEmpty [qiFixture "a".toList]).1
        [qiVariant]).2.skipped_count = 1
    ∧ (import_questions
        (import_questions stEmpty [qiFixture "a".toList]).1
        [qiVariant]).1.questions
      = (import_questions stEmpty [qiFixture "a".toList]).1.questions := by
  have h := C10_hash_ignores_topic_and_age
  have heq : importHash (qiFixture "a".toList) = importHash qiVariant :=
    h.1 (qiFixture "a".toList) qiVariant rfl rfl rfl
  have hsingle := importLoop_fresh [qiFixture "a".toList] stEmpty 0 0
    (by simp)
    (by intro qi _ q hq; simp [stEmpty] at hq)
  have hmem : importHash qiVariant
      ∈ (importLoop stEmpty 0 0 [qiFixture "a".toList]).1.questions.map
        (fun q => q.hash) := by
    rw [hsingle.2.2, ← heq]
    simp [stEmpty]
  obtain ⟨q, hq, hh⟩ := List.mem_map.mp hmem
  have hpresent : ∃ q2 ∈ (import_questions stEmpty
      [qiFixture "a".toList]).1.questions,
      q2.hash = importHash qiVariant := ⟨q, hq, hh⟩
  have h2 := h.2 (import_questions stEmpty [qiFixture "a".toList]).1
    qiVariant hpresent
  exact ⟨heq, h2.1, h2.2.1, h2.2.2⟩

/-! ## Claim C8 -/

theorem runIter_props (s : JobSnapshot) (o : GenOutcome) :
    (runIter s o).status = s.status
    ∧ (runIter s o).target_count = s.target_count
    ∧ (runIter s o).generated_count ≤ s.generated_count + 1 := by
  cases o <;> simp [runIter]

theorem scanl_runIter_mem (outcomes : List GenOutcome) :
    ∀ (a : JobSnapshot), ∀ s ∈ outcomes.scanl runIter a,
      s.status = a.status ∧ s.target_count = a.target_count
      ∧ s.generated_count ≤ a.generated_count + outcomes.length := by
  induction outcomes with
  | nil =>
    intro a s hs
    simp only [List.scanl_nil, List.mem_singleton] at hs
    subst hs
    simp
  | cons o os ih =>
    intro a s hs
    rw [List.scanl_cons] at hs
    rcases List.mem_append.mp hs with h1 | h2
    · rcases List.mem_singleton.mp h1 with rfl
      simp
    · have h := ih (runIter a o) s h2
      have hr := runIter_props a o
      refine ⟨h.1.trans hr.1, h.2.1.trans hr.2.1, ?_⟩
      have ha := h.2.2
      have hb := hr.2.2
      simp only [List.length_cons]
      omega

theorem foldl_runIter_props (outcomes : List GenOutcome) :
    ∀ a : JobSnapshot, (outcomes.foldl runIter a).status = a.status
      ∧ (outcomes.foldl runIter a).target_count = a.target_count
      ∧ (outcomes.foldl runIter a).generated_count
          ≤ a.generated_count + outcomes.length := by
  induction outcomes with
  | nil => intro a; simp
  | cons o os ih =>
    intro a
    rw [List.foldl_cons]
    have h := ih (runIter a o)
    have hr := runIter_props a o
    refine ⟨h.1.trans hr.1, h.2.1.trans hr.2.1, ?_⟩
    have ha := h.2.2
    have hb := hr.2.2
    simp only [List.length_cons]
    omega

theorem gqb_eq (target_count : Nat) (outcomes : List GenOutcome)
    (fault : WorkerFault) :
    generate_questions_background target_count outcomes fault
      = ({ status := JobStatus.pending, target_count := target_count, generated_count := 0 } : JobSnapshot)
        :: (outcomes.scanl runIter { status := JobStatus.running, target_count := target_count, generated_count := 0 }
          ++ (match fault with
              | WorkerFault.noFault => [{ status := JobStatus.completed, target_count := (outcomes.foldl runIter { status := JobStatus.running, target_count := target_count, generated_count := 0 }).target_count, generated_count := (outcomes.foldl runIter { status := JobStatus.running, target_count := target_count, generated_count := 0 }).generated_count }]
              | WorkerFault.beforeComplete => [{ status := JobStatus.failed, target_count := (outcomes.foldl runIter { status := JobStatus.running, target_count := target_count, generated_count := 0 }).target_count, generated_count := (outcomes.foldl runIter { status := JobStatus.running, target_count := target_count, generated_count := 0 }).generated_count }]
              | WorkerFault.afterComplete => [{ status := JobStatus.completed, target_count := (outcomes.foldl runIter { status := JobStatus.running, target_count := target_count, generated_count := 0 }).target_count, generated_count := (outcomes.foldl runIter { status := JobStatus.running, target_count := target_count, generated_count := 0 }).generated_count }, { status := JobStatus.failed, target_count := (outcomes.foldl runIter { status := JobStatus.running, target_count := target_count, generated_count := 0 }).target_count, generated_count := (outcomes.foldl runIter { status := JobStatus.running, target_count := target_count, generated_count := 0 }).generated_count }])) := rfl

/-- The bound half of the job invariant does hold in the source: along
every worker trace (which runs at most `target_count` loop iterations,
whatever the fault position) the generated count never exceeds the
target. -/
theorem generated_le_target_on_trace (target_count : Nat)
    (outcomes : List GenOutcome) (fault : WorkerFault)
    (hlen : outcomes.length ≤ target_count) :
    ∀ s ∈ generate_questions_background target_count outcomes fault,
      s.generated_count ≤ s.target_count := by
  intro s hs
  rw [gqb_eq] at hs
  rcases List.mem_cons.mp hs with rfl | hs2
  · exact Nat.zero_le _
  rcases List.mem_append.mp hs2 with hloop | hfin
  · obtain ⟨h1, h2, h3⟩ := scanl_runIter_mem outcomes _ s hloop
    simp only at h2 h3
    omega
  · obtain ⟨g1, g2, g3⟩ := foldl_runIter_props outcomes
      { status := JobStatus.running, target_count := target_count, generated_count := 0 }
    simp only at g2 g3
    cases fault with
    | noFault =>
      rcases List.mem_singleton.mp hfin with rfl
      simp only
      omega
    | beforeComplete =>
      rcases List.mem_singleton.mp hfin with rfl
      simp only
      omega
    | afterComplete =>
      rcases List.mem_cons.mp hfin with rfl | h2
      · simp only
        omega
      · rcases List.mem_singleton.mp h2 with rfl
        simp only
        omega

/-- `cleanup_old_jobs` only removes entries: every job surviving cleanup
was already present, unchanged. -/
theorem cleanup_only_removes (jobs : List (Nat × Job)) (now maxAge : Rat) :
    ∀ jb ∈ cleanup_old_jobs jobs now maxAge, jb ∈ jobs := by
  intro jb hjb
  exact List.mem_of_mem_filter hjb

/-- Claim C8 (divergence record): the `generated_count ≤ target_count`
half of the claim holds along every trace (see
`generated_le_target_on_trace`), but the terminal-stability half fails on
the code: the worker's outer exception handler also covers the completion
block that runs after the Completed status write (the WebSocket
completion send and the database close), so an unhandled fault there
overwrites Completed with Failed.  Evaluating the worker on a
one-question job that inserts its question and then faults in the
completion block yields the trace Pending, Running, Running (one
generated), Completed, Failed — a later step changes the status of a job
that was already Completed, which the claim forbids. -/
theorem C8_completed_then_failed_eval :
    generate_questions_background 1 [GenOutcome.inserted]
        WorkerFault.afterComplete
      = [{ status := JobStatus.pending, target_count := 1, generated_count := 0 },
         { status := JobStatus.running, target_count := 1, generated_count := 0 },
         { status := JobStatus.running, target_count := 1, generated_count := 1 },
         { status := JobStatus.completed, target_count := 1, generated_count := 1 },
         { status := JobStatus.failed, target_count := 1, generated_count := 1 }] := by
  decide

/-! ## Claim C3 -/

/-- The per-recipient deduplication invariant: every `(recipient, question)`
pair occurs in the assignment table at most once. -/
def AssignUnique (st : AppState) : Prop :=
  (st.user_questions.map
    (fun uq : UserQuestion => (uq.user_id, uq.question_id))).Nodup

instance (st : AppState) : Decidable (AssignUnique st) :=
  inferInstanceAs (Decidable (List.Nodup _))

theorem ageFilter_sublist (questions : List Question) (age : Option Int) :
    (ageFilter questions age).Sublist questions := by
  cases age with
  | none => exact List.Sublist.refl _
  | some a => exact List.filter_sublist _

theorem topicFilter_sublist (questions : List Question)
    (topic : Option (List Char)) :
    (topicFilter questions topic).Sublist questions := by
  cases topic with
  | none => exact List.Sublist.refl _
  | some t =>
    unfold topicFilter
    by_cases h : lowerText t == "random".toList
    · simp only [h, if_true]
      exact List.Sublist.refl _
    · simp only [h, if_false]
      exact List.filter_sublist _

theorem availableQuestions_sublist (st : AppState) (user : UserRec)
    (limit : Nat) (age : Option Int) (topic : Option (List Char)) :
    (availableQuestions st user limit age topic).Sublist st.questions := by
  unfold availableQuestions
  refine (List.take_sublist _ _).trans ?_
  refine (List.filter_sublist _).trans ?_
  exact (topicFilter_sublist _ _).trans (ageFilter_sublist _ _)

theorem mem_available_not_assigned {st : AppState} {user : UserRec}
    {limit : Nat} {age : Option Int} {topic : Option (List Char)}
    {q : Question}
    (h : q ∈ availableQuestions st user limit age topic) :
    q.id ∉ assignedIds st user := by
  unfold availableQuestions at h
  have h2 := (List.take_sublist _ _).subset h
  have h3 := (List.mem_filter.mp h2).2
  intro hmem
  exact absurd hmem (by simpa using h3)

theorem append_assignments_unique (st : AppState) (user : UserRec)
    (limit : Nat) (age : Option Int) (topic : Option (List Char))
    (huq : AssignUnique st) (hq : (st.questions.map Question.id).Nodup) :
    ((st.user_questions
        ++ (availableQuestions st user limit age topic).map
          (fun q : Question =>
            ({ user_id := user.id, question_id := q.id, seen := false }
              : UserQuestion))).map
      (fun uq : UserQuestion => (uq.user_id, uq.question_id))).Nodup := by
  rw [List.map_append, List.nodup_append]
  refine ⟨huq, ?_, ?_⟩
  · have hids : ((availableQuestions st user limit age topic).map
        Question.id).Nodup :=
      hq.sublist ((availableQuestions_sublist st user limit age topic).map _)
    have hrw : ((availableQuestions st user limit age topic).map
          (fun q : Question =>
            ({ user_id := user.id, question_id := q.id, seen := false }
              : UserQuestion))).map
          (fun uq : UserQuestion => (uq.user_id, uq.question_id))
        = ((availableQuestions st user limit age topic).map
            Question.id).map (fun i => (user.id, i)) := by
      simp only [List.map_map]
      rfl
    rw [hrw]
    exact hids.map (fun a b hab => by simpa using congrArg Prod.snd hab)
  · intro p hp1 hp2
    obtain ⟨uq, huq1, huq2⟩ := List.mem_map.mp hp1
    obtain ⟨uq2, huq2mem, hpair2⟩ := List.mem_map.mp hp2
    obtain ⟨q, hq1, hmk⟩ := List.mem_map.mp huq2mem
    subst hmk
    have hcomp := huq2.trans hpair2.symm
    have hu : uq.user_id = user.id := congrArg Prod.fst hcomp
    have hqid : uq.question_id = q.id := congrArg Prod.snd hcomp
    have hassigned : q.id ∈ assignedIds st user := by
      unfold assignedIds
      refine List.mem_map.mpr ⟨uq, ?_, hqid⟩
      refine List.mem_filter.mpr ⟨huq1, ?_⟩
      simp [hu]
    exact mem_available_not_assigned hq1 hassigned

/-- Claim C3: for every recipient and question, at most one assignment
binding ever exists — every supply read preserves the uniqueness of
`(recipient, question)` assignment pairs (given unique question ids) — and
three successive `limit = 2` reads by one recipient over a three-question
store return 2, then 1, then 0 questions with no repeats, the assignment
table ending at exactly the three pairs. -/
theorem C3_assignment_uniqueness :
    (∀ (st : AppState) (email : List Char) (limit : Nat) (age : Option Int)
        (topic : Option (List Char)),
      AssignUnique st → (st.questions.map Question.id).Nodup →
      AssignUnique (get_questions st email limit age topic).2)
    ∧ ((get_questions stThree ("a@example.com".toList) 2 none none).1
        = Except.ok [fixtureQ 1 "h1".toList, fixtureQ 2 "h2".toList]
      ∧ (get_questions
          (get_questions stThree ("a@example.com".toList) 2 none none).2
          ("a@example.com".toList) 2 none none).1
        = Except.ok [fixtureQ 3 "h3".toList]
      ∧ (get_questions
          (get_questions
            (get_questions stThree ("a@example.com".toList) 2 none none).2
            ("a@example.com".toList) 2 none none).2
          ("a@example.com".toList) 2 none none).1
        = Except.ok []
      ∧ ((get_questions
          (get_questions
            (get_questions stThree ("a@example.com".toList) 2 none none).2
            ("a@example.com".toList) 2 none none).2
          ("a@example.com".toList) 2 none none).2.user_questions.map
            (fun uq : UserQuestion => (uq.user_id, uq.question_id))
        = [(1, 1), (1, 2), (1, 3)])) := by
  constructor
  · intro st email limit age topic huq hq
    unfold get_questions
    cases hfind : st.users.find? (fun u => u.email == email) with
    | none => exact huq
    | some user =>
      dsimp only
      split
      · exact huq
      · dsimp only
        split
        · split
          · exact append_assignments_unique st user limit age topic huq hq
          · exact append_assignments_unique st user limit age topic huq hq
        · exact append_assignments_unique st user limit age topic huq hq
  · refine ⟨by decide, by decide, by decide, by decide⟩

/-- Witness for the preservation half of claim C3: the initial
three-question state has unique assignments and unique question ids, and a
read preserves the invariant. -/
theorem C3_assignment_uniqueness_witness :
    AssignUnique stThree
    ∧ (stThree.questions.map Question.id).Nodup
    ∧ AssignUnique
        (get_questions stThree ("a@example.com".toList) 2 none none).2 := by
  refine ⟨by decide, by decide, ?_⟩
  exact C3_assignment_uniqueness.1 stThree ("a@example.com".toList) 2 none
    none (by decide) (by decide)

end Trivia
